import Mathlib

/-!
# Verification of the snap-sync coordination core (eth/protocols/snap/sync.go)

A shallow embedding of the parts of the snapshot-state synchronizer that the
frozen claims talk about: the account-task chunker, the task forwarding and
cleaning operations, the response trimming logic, the revert protocol, the
progress persistence round trip, the empty-response handling, and the peer
registry.  256-bit hashes are modelled as natural numbers below 2^256, with
an explicit modulus wherever the Go code converts a big integer back into a
hash (common.BigToHash truncates to 32 bytes).
-/

namespace SnapSync

/-- The size of the 256-bit key space: hashes live in `[0, hashSpace)`. -/
def hashSpace : Nat := 2 ^ 256

/-- The largest hash, 0xff..ff (32 bytes of ones). -/
def maxHash : Nat := hashSpace - 1

/-- maxRequestSize is the maximum number of bytes to request from a remote peer. -/
def maxRequestSize : Nat := 512 * 1024

/-- maxStorageSetRequestCount is the maximum number of contracts to request the
storage of in a single query. -/
def maxStorageSetRequestCount : Nat := maxRequestSize / 1024

/-- maxCodeRequestCount is the maximum number of bytecode blobs to request in a
single query; computed in the source as maxRequestSize / (24*1024) * 4 with Go
integer (flooring) division at each step. -/
def maxCodeRequestCount : Nat := maxRequestSize / (24 * 1024) * 4

/-- maxTrieRequestCount is the maximum number of trie node blobs to request in
a single query. -/
def maxTrieRequestCount : Nat := 512

/-- accountConcurrency is the number of chunks to split the account trie into
to allow concurrent retrievals. -/
def accountConcurrency : Nat := 16

/-- storageConcurrency is the number of chunks to split a large contract
storage trie into to allow concurrent retrievals. -/
def storageConcurrency : Nat := 16

/-- storageTask represents the sync task for a chunk of the storage snapshot
(fields Next, Last are serialized; root, req, done are runtime internals).
The pending request is modelled by its id. -/
structure storageTask where
  next : Nat
  last : Nat
  root : Nat
  req : Option Nat
  done : Bool
  deriving Repr, DecidableEq

/-- accountResponse: the already-verified remote response to an account range
request, reduced to the fields the runloop logic reads.  Account bodies are
opaque values, here numbers.  cont records whether the range has a
continuation. -/
structure accountResponse where
  hashes : List Nat
  accounts : List Nat
  cont : Bool
  deriving Repr, DecidableEq

/-- accountTask represents the sync task for a chunk of the account snapshot.
Next, Last and SubTasks are serialized; the rest are runtime internals.  Maps
are modelled as association lists, sets as lists of keys, and the pending
request by its id. -/
structure accountTask where
  next : Nat
  last : Nat
  subTasks : List (Nat × List storageTask)
  req : Option Nat
  res : Option accountResponse
  pend : Nat
  needCode : List Bool
  needState : List Bool
  needHeal : List Bool
  codeTasks : List Nat
  stateTasks : List (Nat × Nat)
  done : Bool
  deriving Repr, DecidableEq

/-- A fresh (transient-state-free) account task over the interval
`[next, last]`, as built by loadSyncStatus when chunking a fresh cycle. -/
def mkAccountTask (next last : Nat) : accountTask :=
  { next := next, last := last, subTasks := [], req := none, res := none,
    pend := 0, needCode := [], needState := [], needHeal := [],
    codeTasks := [], stateTasks := [], done := false }

/-- The common chunk step used by both splitters:
2^256 / concurrency - 1 (the loop then adds the step to the running next). -/
def chunkStep (concurrency : Nat) : Nat := hashSpace / concurrency - 1

/-- The chunking loop of loadSyncStatus: for i in [0, accountConcurrency),
last := BigToHash(next + step), with the final chunk forced to 0xff..ff, then
next := BigToHash(last + 1).  fuel counts the remaining iterations, so
fuel = accountConcurrency - i. -/
def mkAccountTasksAux : Nat → Nat → Nat → List accountTask
  | 0, _, _ => []
  | fuel + 1, next, i =>
    let last :=
      if i = accountConcurrency - 1 then maxHash
      else (next + chunkStep accountConcurrency) % hashSpace
    mkAccountTask next last :: mkAccountTasksAux fuel ((last + 1) % hashSpace) (i + 1)

/-- The fresh task list produced by loadSyncStatus when no persisted progress
exists. -/
def initAccountTasks : List accountTask :=
  mkAccountTasksAux accountConcurrency 0 0

/-- A fresh storage sub-task over `[next, last]` for a given storage root, as
built by the large-contract promotion in processStorageResponse. -/
def mkStorageTask (next last root : Nat) : storageTask :=
  { next := next, last := last, root := root, req := none, done := false }

/-- The storage chunking loop of processStorageResponse: identical arithmetic
to the account splitter, over storageConcurrency chunks, rooted at a given
storage root. -/
def mkStorageTasksAux : Nat → Nat → Nat → Nat → List storageTask
  | 0, _, _, _ => []
  | fuel + 1, next, i, root =>
    let last :=
      if i = storageConcurrency - 1 then maxHash
      else (next + chunkStep storageConcurrency) % hashSpace
    mkStorageTask next last root :: mkStorageTasksAux fuel ((last + 1) % hashSpace) (i + 1) root

/-- The sub-task list created when a large contract is promoted. -/
def storageSubtasks (root : Nat) : List storageTask :=
  mkStorageTasksAux storageConcurrency 0 0 root

/-- Contiguity of a list of intervals (next, last): each interval starts one
past the end of its predecessor. -/
def contiguousBounds : List (Nat × Nat) → Bool
  | [] => true
  | [_] => true
  | a :: b :: rest => (b.1 = a.2 + 1) && contiguousBounds (b :: rest)

/-- cleanAccountTasks removes account range retrieval tasks that have already
been completed (the in-place index loop with i-- is exactly this filter). -/
def cleanAccountTasks : List accountTask → List accountTask
  | [] => []
  | t :: ts => if t.done then cleanAccountTasks ts else t :: cleanAccountTasks ts

/-- The cursor-advance loop of forwardAccountTask over (hash, needy) pairs,
where needy is needCode[i] || needState[i]: the Go loop returns early at the
first needy index, otherwise sets Next := hash + 1 for each hash.  Returns
the final Next together with whether every delivered hash was passed. -/
def advanceNext : Nat → List (Nat × Bool) → Nat × Bool
  | next, [] => (next, true)
  | next, (h, needy) :: rest =>
    if needy then (next, false)
    else advanceNext ((h + 1) % hashSpace) rest

/-- The cursor/termination part of forwardAccountTask: if the task has no
pending response there is nothing to forward; otherwise clear the response,
push Next forward to the first account still missing data, and mark the task
done when every hash was passed and the response had no continuation.  (The
node/snapshot persistence part of the Go function is modelled separately by
forwardPersistKeys.) -/
def forwardAccountTask (t : accountTask) : accountTask :=
  match t.res with
  | none => t
  | some r =>
    let needy := List.zipWith (fun c s => c || s) t.needCode t.needState
    let stepped := advanceNext t.next (r.hashes.zip needy)
    { t with res := none, next := stepped.1,
             done := if stepped.2 then !r.cont else t.done }

/-- The node-persistence filter of forwardAccountTask: walking the
reconstructed node store, a (key, value) entry is written to the database
batch only if its key is neither a boundary node, nor an overflow node, nor
an incomplete-account witness. -/
def forwardPersistKeys (nodes : List (Nat × Nat))
    (bounds overflow incompletes : List Nat) : List (Nat × Nat) :=
  nodes.filter fun kv =>
    decide (kv.1 ∉ bounds) && decide (kv.1 ∉ overflow) && decide (kv.1 ∉ incompletes)

/-- The overflow-trimming loop shared (syntactically duplicated in the source)
by processAccountResponse and the large-contract branch of
processStorageResponse.  Input: the task's Last bound, the delivered
(hash, body) pairs, and the incoming continuation flag.  A hash equal to Last
clears cont and is kept; at the first hash beyond Last, that hash and every
later one is proved into the overflow set, the lists are cut there, and cont
is cleared.  Returns (kept pairs, overflow-witness hashes, cont). -/
def trimResponse : Nat → List (Nat × Nat) → Bool → List (Nat × Nat) × List Nat × Bool
  | _, [], cont => ([], [], cont)
  | last, (h, a) :: rest, cont =>
    if h = last then
      let out := trimResponse last rest false
      ((h, a) :: out.1, out.2.1, out.2.2)
    else if last < h then
      ([], h :: rest.map Prod.fst, false)
    else
      let out := trimResponse last rest cont
      ((h, a) :: out.1, out.2.1, out.2.2)

/-- The outcome of processing the trailing account of a storage response:
the account's needState/needHeal flags and the main task's pend counter, the
final SubTasks entry for the account (none when no entry exists), the final
active subtask (res.subTask), the kept slot pairs, the overflow witnesses and
the final continuation flag. -/
structure trailingStorageResult where
  needState : Bool
  needHeal : Bool
  pend : Nat
  subTasks : Option (List storageTask)
  subTask : Option storageTask
  kept : List (Nat × Nat)
  overflow : List Nat
  cont : Bool
  deriving Repr, DecidableEq

/-- The per-account body of processStorageResponse, for the trailing account
(i = len(res.hashes)-1) of a response that was not a subtask request
(res.subTask == nil on entry).  In order: (1) clear needState[j] and
decrement pend when the range completed; (2) mark needHeal[j] when it did
not; (3) large-contract promotion: when the range continues and no SubTasks
entry exists, split the storage keyspace into storageConcurrency chunks and
make res.subTask the first of them; (4) when an active subtask exists, trim
the delivered slots against its Last and either push its Next to the last
kept slot hash + 1 (cont still set) or mark it done.  tasks[0] aliases the
head of the stored SubTasks entry, so its mutation is reflected there. -/
def processTrailingStorage (needStateJ needHealJ : Bool) (pend : Nat)
    (existing : Option (List storageTask)) (cont : Bool)
    (slots : List (Nat × Nat)) (root : Nat) : trailingStorageResult :=
  let clear := needStateJ && !cont
  let needState1 := if clear then false else needStateJ
  let pend1 := if clear then pend - 1 else pend
  let needHeal1 := if !needHealJ && cont then true else needHealJ
  let promoted :=
    if cont then
      match existing with
      | none => let tasks := storageSubtasks root; (some tasks, tasks.head?)
      | some tasks => (some tasks, (none : Option storageTask))
    else (existing, (none : Option storageTask))
  match promoted.2 with
  | none =>
    { needState := needState1, needHeal := needHeal1, pend := pend1,
      subTasks := promoted.1, subTask := none, kept := slots, overflow := [],
      cont := cont }
  | some st =>
    let out := trimResponse st.last slots cont
    let st' :=
      if out.2.2 then
        { st with next := ((out.1.getLast?.map Prod.fst).getD 0 + 1) % hashSpace }
      else { st with done := true }
    let subTasks2 := promoted.1.map fun l =>
      match l with
      | [] => []
      | _ :: rest => st' :: rest
    { needState := needState1, needHeal := needHeal1, pend := pend1,
      subTasks := subTasks2, subTask := some st', kept := out.1,
      overflow := out.2.1, cont := out.2.2 }

/-! ## The revert protocol (one pure state machine per request class)

Each revert runs on the event loop.  The stale channel is modelled by a
boolean (closed or not); "close" is setting it.  The live request table is
the list of live ids, the timeout timer a running flag, and the task
fragment state the fields the revert restores.  A map insert is modelled on
association lists by replacing any previous binding. -/

/-- Insert a key into a set (Go map[K]struct{} insert). -/
def insertSet (h : Nat) (l : List Nat) : List Nat :=
  if h ∈ l then l else h :: l

/-- Insert a binding into a map (Go map assignment: overwrite). -/
def mapInsert (k v : Nat) (m : List (Nat × Nat)) : List (Nat × Nat) :=
  (k, v) :: m.filter fun p => ¬ p.1 = k

/-- The syncer state touched by revertAccountRequest: the stale signal of the
request being reverted, the live accountReqs table, the request timer and the
owning task's pending-request slot. -/
structure accountRevertState where
  stale : Bool
  accountReqs : List Nat
  timerRunning : Bool
  taskReq : Option Nat
  deriving Repr, DecidableEq

/-- revertAccountRequest: if the stale channel is already closed this is a
no-op; otherwise close stale, delete the id from accountReqs, stop the timer
and, when the task's pending request is this one, clear task.req. -/
def revertAccountRequest (id : Nat) (st : accountRevertState) : accountRevertState :=
  if st.stale then st
  else
    { stale := true, accountReqs := st.accountReqs.erase id, timerRunning := false,
      taskReq := if st.taskReq = some id then none else st.taskReq }

/-- The syncer state touched by revertBytecodeRequest. -/
structure bytecodeRevertState where
  stale : Bool
  bytecodeReqs : List Nat
  timerRunning : Bool
  codeTasks : List Nat
  deriving Repr, DecidableEq

/-- revertBytecodeRequest: stale-guarded; close stale, delete the id from
bytecodeReqs, stop the timer and re-insert every requested code hash into the
task's codeTasks set. -/
def revertBytecodeRequest (id : Nat) (hashes : List Nat)
    (st : bytecodeRevertState) : bytecodeRevertState :=
  if st.stale then st
  else
    { stale := true, bytecodeReqs := st.bytecodeReqs.erase id, timerRunning := false,
      codeTasks := hashes.foldl (fun acc h => insertSet h acc) st.codeTasks }

/-- The syncer state touched by revertStorageRequest.  subTaskReq is the req
slot of the request's subtask when it was a large-contract request. -/
structure storageRevertState where
  stale : Bool
  storageReqs : List Nat
  timerRunning : Bool
  stateTasks : List (Nat × Nat)
  subTaskReq : Option Nat
  deriving Repr, DecidableEq

/-- revertStorageRequest: stale-guarded; close stale, delete the id from
storageReqs, stop the timer; for a large-contract request clear the subtask's
req slot, otherwise re-insert every requested account -> root binding into the
main task's stateTasks map. -/
def revertStorageRequest (id : Nat) (accounts roots : List Nat) (isSubTask : Bool)
    (st : storageRevertState) : storageRevertState :=
  if st.stale then st
  else if isSubTask then
    { stale := true, storageReqs := st.storageReqs.erase id, timerRunning := false,
      stateTasks := st.stateTasks, subTaskReq := none }
  else
    { stale := true, storageReqs := st.storageReqs.erase id, timerRunning := false,
      stateTasks := (accounts.zip roots).foldl (fun acc p => mapInsert p.1 p.2 acc) st.stateTasks,
      subTaskReq := st.subTaskReq }

/-- The syncer state touched by revertTrienodeHealRequest; trieTasks maps a
trie node hash to its sync path. -/
structure trienodeHealRevertState where
  stale : Bool
  trienodeHealReqs : List Nat
  timerRunning : Bool
  trieTasks : List (Nat × Nat)
  deriving Repr, DecidableEq

/-- revertTrienodeHealRequest: stale-guarded; close stale, delete the id from
trienodeHealReqs, stop the timer and re-insert every requested hash -> path
binding into the heal task's trieTasks map. -/
def revertTrienodeHealRequest (id : Nat) (hashes paths : List Nat)
    (st : trienodeHealRevertState) : trienodeHealRevertState :=
  if st.stale then st
  else
    { stale := true, trienodeHealReqs := st.trienodeHealReqs.erase id, timerRunning := false,
      trieTasks := (hashes.zip paths).foldl (fun acc p => mapInsert p.1 p.2 acc) st.trieTasks }

/-- The syncer state touched by revertBytecodeHealRequest. -/
structure bytecodeHealRevertState where
  stale : Bool
  bytecodeHealReqs : List Nat
  timerRunning : Bool
  codeTasks : List Nat
  deriving Repr, DecidableEq

/-- revertBytecodeHealRequest: stale-guarded; close stale, delete the id from
bytecodeHealReqs, stop the timer and re-insert every requested code hash into
the heal task's codeTasks set. -/
def revertBytecodeHealRequest (id : Nat) (hashes : List Nat)
    (st : bytecodeHealRevertState) : bytecodeHealRevertState :=
  if st.stale then st
  else
    { stale := true, bytecodeHealReqs := st.bytecodeHealReqs.erase id, timerRunning := false,
      codeTasks := hashes.foldl (fun acc h => insertSet h acc) st.codeTasks }

/-! ## Progress persistence (saveSyncStatus / loadSyncStatus)

Only the exported fields of accountTask (Next, Last, SubTasks) and
storageTask (Next, Last) survive JSON marshalling; all lowercase runtime
fields are dropped on save and zero-valued on load.  The JSON codec itself is
an external collaborator; the record below is its decoded form. -/

/-- The serialized form of a storageTask: only Next and Last are exported. -/
structure persistedStorageTask where
  next : Nat
  last : Nat
  deriving Repr, DecidableEq

/-- The serialized form of an accountTask: Next, Last and SubTasks. -/
structure persistedAccountTask where
  next : Nat
  last : Nat
  subTasks : List (Nat × List persistedStorageTask)
  deriving Repr, DecidableEq

/-- syncProgress: the database entry allowing a suspended snap sync to
resume: the account tasks plus the cumulative counters that saveSyncStatus
populates (the dup/nop counters of the record are never populated and stay
zero). -/
structure syncProgress where
  tasks : List persistedAccountTask
  accountSynced : Nat
  accountBytes : Nat
  bytecodeSynced : Nat
  bytecodeBytes : Nat
  storageSynced : Nat
  storageBytes : Nat
  trienodeHealSynced : Nat
  trienodeHealBytes : Nat
  bytecodeHealSynced : Nat
  bytecodeHealBytes : Nat
  deriving Repr, DecidableEq

/-- The syncer fields that saveSyncStatus reads and loadSyncStatus writes. -/
structure syncerProgressState where
  tasks : List accountTask
  snapped : Bool
  accountSynced : Nat
  accountBytes : Nat
  bytecodeSynced : Nat
  bytecodeBytes : Nat
  storageSynced : Nat
  storageBytes : Nat
  trienodeHealSynced : Nat
  trienodeHealBytes : Nat
  bytecodeHealSynced : Nat
  bytecodeHealBytes : Nat
  deriving Repr, DecidableEq

/-- Marshalling an account task keeps only the exported fields. -/
def persistAccountTask (t : accountTask) : persistedAccountTask :=
  { next := t.next, last := t.last,
    subTasks := t.subTasks.map fun kv =>
      (kv.1, kv.2.map fun st => { next := st.next, last := st.last }) }

/-- saveSyncStatus marshals the remaining sync tasks and counters. -/
def saveSyncStatus (s : syncerProgressState) : syncProgress :=
  { tasks := s.tasks.map persistAccountTask,
    accountSynced := s.accountSynced, accountBytes := s.accountBytes,
    bytecodeSynced := s.bytecodeSynced, bytecodeBytes := s.bytecodeBytes,
    storageSynced := s.storageSynced, storageBytes := s.storageBytes,
    trienodeHealSynced := s.trienodeHealSynced, trienodeHealBytes := s.trienodeHealBytes,
    bytecodeHealSynced := s.bytecodeHealSynced, bytecodeHealBytes := s.bytecodeHealBytes }

/-- Unmarshalling re-creates an account task with zero-valued runtime state
(Go leaves unexported fields at their zero value). -/
def restoreAccountTask (p : persistedAccountTask) : accountTask :=
  { next := p.next, last := p.last,
    subTasks := p.subTasks.map fun kv =>
      (kv.1, kv.2.map fun st => mkStorageTask st.next st.last 0),
    req := none, res := none, pend := 0, needCode := [], needState := [],
    needHeal := [], codeTasks := [], stateTasks := [], done := false }

/-- loadSyncStatus: with a well-formed persisted record, restore the task
list and counters (snapped iff no tasks remain); without one, reset the
counters and chunk the keyspace afresh. -/
def loadSyncStatus (status : Option syncProgress) (s : syncerProgressState) :
    syncerProgressState :=
  match status with
  | some p =>
    { s with tasks := p.tasks.map restoreAccountTask,
             snapped := p.tasks.length = 0,
             accountSynced := p.accountSynced, accountBytes := p.accountBytes,
             bytecodeSynced := p.bytecodeSynced, bytecodeBytes := p.bytecodeBytes,
             storageSynced := p.storageSynced, storageBytes := p.storageBytes,
             trienodeHealSynced := p.trienodeHealSynced,
             trienodeHealBytes := p.trienodeHealBytes,
             bytecodeHealSynced := p.bytecodeHealSynced,
             bytecodeHealBytes := p.bytecodeHealBytes }
  | none =>
    { s with tasks := initAccountTasks,
             accountSynced := 0, accountBytes := 0, bytecodeSynced := 0,
             bytecodeBytes := 0, storageSynced := 0, storageBytes := 0,
             trienodeHealSynced := 0, trienodeHealBytes := 0,
             bytecodeHealSynced := 0, bytecodeHealBytes := 0 }

/-- The interval data of a task: Next, Last and the SubTasks bounds. -/
def taskBounds (t : accountTask) : Nat × Nat × List (Nat × List (Nat × Nat)) :=
  (t.next, t.last, t.subTasks.map fun kv => (kv.1, kv.2.map fun st => (st.next, st.last)))

/-! ## The OnAccounts delivery callback and the assigner's peer choice -/

/-- How the OnAccounts callback exits: an unexpected (stale) packet, a
timeout that already fired, a rejection (empty response: peer marked
stateless, request schedule-reverted), or continuing into the proof
verification path.  The first three return a nil error. -/
inductive onAccountsExit where
  | unexpectedPacket
  | timedOut
  | rejected
  | verify
  deriving Repr, DecidableEq

/-- The syncer state the prefix of OnAccounts touches. -/
structure onAccountsState where
  peers : List String
  accountIdlers : List String
  accountReqs : List Nat
  statelessPeers : List String
  deriving Repr, DecidableEq

/-- Insert a peer id into a set of peer ids. -/
def insertPeer (p : String) (l : List String) : List String :=
  if p ∈ l then l else p :: l

/-- The lock-held prefix of OnAccounts: mark the peer idle again (iff still
registered), look the request up by id (missing: unexpected packet, return
nil), delete it from the live table, stop the timer (already fired: return
nil, a revert is en route), and on an empty hashes/accounts/proof payload
mark the peer stateless and schedule-revert the request, returning nil.
Returns the new state, the exit taken and whether a revert was scheduled. -/
def onAccounts (st : onAccountsState) (peer : String) (id : Nat)
    (numHashes numAccounts numProof : Nat) (timerAlreadyFired : Bool) :
    onAccountsState × onAccountsExit × Bool :=
  let idlers := if peer ∈ st.peers then insertPeer peer st.accountIdlers else st.accountIdlers
  if id ∈ st.accountReqs then
    let st1 := { st with accountIdlers := idlers, accountReqs := st.accountReqs.erase id }
    if timerAlreadyFired then (st1, .timedOut, false)
    else if numHashes = 0 ∧ numAccounts = 0 ∧ numProof = 0 then
      ({ st1 with statelessPeers := insertPeer peer st1.statelessPeers }, .rejected, true)
    else (st1, .verify, false)
  else ({ st with accountIdlers := idlers }, .unexpectedPacket, false)

/-- The idle-peer choice every assigner makes: iterate the idle set and take
the first peer not marked stateless (the same loop appears in all five
assigners). -/
def pickIdlePeer (idlers statelessPeers : List String) : Option String :=
  idlers.find? fun id => decide (id ∉ statelessPeers)

/-! ## The peer registry (Register / Unregister) -/

/-- The registry fields: the peer table, the stateless markers and the five
per-class idle sets. -/
structure peerRegistry where
  peers : List String
  statelessPeers : List String
  accountIdlers : List String
  storageIdlers : List String
  bytecodeIdlers : List String
  trienodeHealIdlers : List String
  bytecodeHealIdlers : List String
  deriving Repr, DecidableEq

/-- Register: fails when the id is already present; otherwise adds the peer
to the peer table and to all five idle sets (stateless markers untouched). -/
def registerPeer (id : String) (r : peerRegistry) : Except String peerRegistry :=
  if id ∈ r.peers then .error "already registered"
  else .ok
    { r with peers := insertPeer id r.peers,
             accountIdlers := insertPeer id r.accountIdlers,
             storageIdlers := insertPeer id r.storageIdlers,
             bytecodeIdlers := insertPeer id r.bytecodeIdlers,
             trienodeHealIdlers := insertPeer id r.trienodeHealIdlers,
             bytecodeHealIdlers := insertPeer id r.bytecodeHealIdlers }

/-- Unregister: fails when the id is unknown; otherwise removes the peer
from the peer table, the stateless set and all five idle sets. -/
def unregisterPeer (id : String) (r : peerRegistry) : Except String peerRegistry :=
  if id ∈ r.peers then .ok
    { r with peers := r.peers.erase id,
             statelessPeers := r.statelessPeers.erase id,
             accountIdlers := r.accountIdlers.erase id,
             storageIdlers := r.storageIdlers.erase id,
             bytecodeIdlers := r.bytecodeIdlers.erase id,
             trienodeHealIdlers := r.trienodeHealIdlers.erase id,
             bytecodeHealIdlers := r.bytecodeHealIdlers.erase id }
  else .error "not registered"

/-- The bytecode-request drain of assignBytecodeTasks: pull hashes out of the
task's codeTasks set until maxCodeRequestCount of them are gathered (or the
set runs dry). -/
def drainCodeHashes (codeTasks : List Nat) : List Nat :=
  codeTasks.take maxCodeRequestCount

/-- Modelled from the spec words, for comparison with the code: the
first-incomplete-hash of a filled task, i.e. the delivered hash at the first
index whose needCode or needState flag is set. -/
def firstIncompleteHash (t : accountTask) (r : accountResponse) : Option Nat :=
  (((r.hashes.zip (List.zipWith (fun c s => c || s) t.needCode t.needState)).find?
    fun p => p.2).map Prod.fst)

/-- A concrete account response: hashes 5 and 9 delivered, no continuation. -/
def c3Res : accountResponse := { hashes := [5, 9], accounts := [50, 90], cont := false }

/-- A concrete filled account task over [0, 100] whose second delivered
account still needs code retrieval. -/
def c3Task : accountTask :=
  { mkAccountTask 0 100 with
    res := some c3Res
    needCode := [false, true]
    needState := [false, false]
    needHeal := [false, false] }

/-- Sorted, pairwise-disjoint account task intervals: every earlier task
ends strictly before every later task begins. -/
abbrev ascendingDisjoint (ts : List accountTask) : Prop :=
  ts.Pairwise fun a b => a.last < b.next

/-- The partition property claimed of Syncer.tasks: sorted, pairwise
disjoint, nonempty intervals whose union is the whole keyspace. -/
abbrev isFullPartition (ts : List accountTask) : Prop :=
  ascendingDisjoint ts ∧ (∀ t ∈ ts, t.next ≤ t.last) ∧
    ∀ k, k < hashSpace → ∃ t ∈ ts, t.next ≤ k ∧ k ≤ t.last

/-- A complete response for the first fresh chunk: one account at the chunk's
Last bound, no continuation (as processAccountResponse sets cont = false when
the final hash equals Last). -/
def c1Response : accountResponse :=
  { hashes := [hashSpace / 16 - 1], accounts := [1], cont := false }

/-- The first fresh account task, filled with c1Response and needing no
code or storage sub-retrievals. -/
def c1FilledTask : accountTask :=
  { mkAccountTask 0 (hashSpace / 16 - 1) with
    res := some c1Response
    needCode := [false]
    needState := [false]
    needHeal := [false] }

/-- The task list after the event loop forwards the completed first chunk
and cleanAccountTasks removes it. -/
def c1Tasks : List accountTask :=
  cleanAccountTasks (forwardAccountTask c1FilledTask :: initAccountTasks.tail)

/-- A filled task over [20, 30] with one complete account at 25 and a
continuation. -/
def c1WitnessTask : accountTask :=
  { mkAccountTask 20 30 with
    res := some { hashes := [25], accounts := [7], cont := true }
    needCode := [false]
    needState := [false]
    needHeal := [false] }

/-- A blank syncer progress state (fresh Syncer). -/
def s0 : syncerProgressState :=
  { tasks := [], snapped := false, accountSynced := 0, accountBytes := 0,
    bytecodeSynced := 0, bytecodeBytes := 0, storageSynced := 0, storageBytes := 0,
    trienodeHealSynced := 0, trienodeHealBytes := 0, bytecodeHealSynced := 0,
    bytecodeHealBytes := 0 }

/-- A registry holding one registered peer "p1" that has been marked
stateless during the cycle while sitting in every idle set. -/
def regExample : peerRegistry :=
  { peers := ["p1"], statelessPeers := ["p1"], accountIdlers := ["p1"],
    storageIdlers := ["p1"], bytecodeIdlers := ["p1"],
    trienodeHealIdlers := ["p1"], bytecodeHealIdlers := ["p1"] }

/-! ## Helper lemmas -/

theorem self_mem_insertPeer (a : String) (l : List String) : a ∈ insertPeer a l := by
  by_cases h : a ∈ l <;> simp [insertPeer, h]

theorem taskBounds_roundtrip (t : accountTask) :
    taskBounds (restoreAccountTask (persistAccountTask t)) = taskBounds t := by
  simp [taskBounds, restoreAccountTask, persistAccountTask, mkStorageTask,
    List.map_map, Function.comp]

theorem mem_insertSet_self (h : Nat) (l : List Nat) : h ∈ insertSet h l := by
  by_cases hm : h ∈ l <;> simp [insertSet, hm]

theorem mem_insertSet_of_mem {a h : Nat} {l : List Nat} (ha : a ∈ l) : a ∈ insertSet h l := by
  by_cases hm : h ∈ l <;> simp [insertSet, hm, ha]

theorem mem_foldl_insertSet_of_mem (hashes : List Nat) {l : List Nat} {a : Nat} (ha : a ∈ l) :
    a ∈ hashes.foldl (fun acc h => insertSet h acc) l := by
  induction hashes generalizing l with
  | nil => exact ha
  | cons h rest ih => exact ih (mem_insertSet_of_mem ha)

theorem mem_foldl_insertSet (hashes : List Nat) (l : List Nat) :
    ∀ h ∈ hashes, h ∈ hashes.foldl (fun acc h => insertSet h acc) l := by
  induction hashes generalizing l with
  | nil => intro h hm; cases hm
  | cons h0 rest ih =>
    intro h hm
    rcases List.mem_cons.mp hm with he | hr
    · subst he
      exact mem_foldl_insertSet_of_mem rest (mem_insertSet_self h l)
    · exact ih (insertSet h0 l) h hr

theorem mem_mapInsert_self (k v : Nat) (m : List (Nat × Nat)) : (k, v) ∈ mapInsert k v m := by
  simp [mapInsert]

theorem mem_mapInsert_of_ne {p : Nat × Nat} {k v : Nat} {m : List (Nat × Nat)}
    (hp : p ∈ m) (hne : p.1 ≠ k) : p ∈ mapInsert k v m := by
  exact List.mem_cons.mpr (Or.inr (List.mem_filter.mpr ⟨hp, by simpa using hne⟩))

theorem mem_foldl_mapInsert_of_mem (pairs : List (Nat × Nat)) {m : List (Nat × Nat)}
    {p : Nat × Nat} (hp : p ∈ m) (hk : p.1 ∉ pairs.map Prod.fst) :
    p ∈ pairs.foldl (fun acc q => mapInsert q.1 q.2 acc) m := by
  induction pairs generalizing m with
  | nil => exact hp
  | cons q rest ih =>
    simp only [List.map_cons, List.mem_cons, not_or] at hk
    exact ih (mem_mapInsert_of_ne hp hk.1) hk.2

theorem mem_foldl_mapInsert (pairs : List (Nat × Nat)) (m : List (Nat × Nat))
    (hnd : (pairs.map Prod.fst).Nodup) :
    ∀ p ∈ pairs, p ∈ pairs.foldl (fun acc q => mapInsert q.1 q.2 acc) m := by
  induction pairs generalizing m with
  | nil => intro p hm; cases hm
  | cons q rest ih =>
    simp only [List.map_cons, List.nodup_cons] at hnd
    intro p hm
    rcases List.mem_cons.mp hm with he | hr
    · subst he
      exact mem_foldl_mapInsert_of_mem rest (mem_mapInsert_self p.1 p.2 m) hnd.1
    · exact ih (mapInsert q.1 q.2 m) hnd.2 p hr

theorem trim_cont_of_false (last : Nat) (l : List (Nat × Nat)) :
    (trimResponse last l false).2.2 = false := by
  induction l with
  | nil => rfl
  | cons p rest ih =>
    obtain ⟨h, a⟩ := p
    by_cases he : h = last
    · simpa [trimResponse, he] using ih
    · by_cases hgt : last < h
      · simp [trimResponse, he, hgt]
      · simpa [trimResponse, he, hgt] using ih

theorem trim_kept_of_gt (last : Nat) (l : List (Nat × Nat)) (cont : Bool)
    (hall : ∀ p ∈ l, last < p.1) : (trimResponse last l cont).1 = [] := by
  cases l with
  | nil => rfl
  | cons p rest =>
    obtain ⟨h, a⟩ := p
    have hgt : last < h := hall (h, a) (List.mem_cons_self _ _)
    have hne : ¬ h = last := by omega
    simp [trimResponse, hne, hgt]

theorem trim_overflow_of_gt (last : Nat) (l : List (Nat × Nat)) (cont : Bool)
    (hall : ∀ p ∈ l, last < p.1) : (trimResponse last l cont).2.1 = l.map Prod.fst := by
  cases l with
  | nil => rfl
  | cons p rest =>
    obtain ⟨h, a⟩ := p
    have hgt : last < h := hall (h, a) (List.mem_cons_self _ _)
    have hne : ¬ h = last := by omega
    simp [trimResponse, hne, hgt]

theorem trim_kept_sorted (last : Nat) (l : List (Nat × Nat)) (cont : Bool)
    (hsorted : l.Pairwise fun a b => a.1 < b.1) :
    (trimResponse last l cont).1 = l.filter fun p => decide (p.1 ≤ last) := by
  induction l generalizing cont with
  | nil => rfl
  | cons p rest ih =>
    obtain ⟨h, a⟩ := p
    rw [List.pairwise_cons] at hsorted
    by_cases he : h = last
    · subst he
      have hall : ∀ q ∈ rest, h < q.1 := fun q hq => hsorted.1 q hq
      have hfil : List.filter (fun p => decide (p.1 ≤ h)) rest = [] := by
        refine List.filter_eq_nil_iff.mpr ?_
        intro q hq
        have hlt := hall q hq
        simp only [decide_eq_true_eq]
        omega
      have hk : (trimResponse h ((h, a) :: rest) cont).1 =
          (h, a) :: (trimResponse h rest false).1 := by
        simp [trimResponse]
      rw [hk, trim_kept_of_gt h rest false hall, List.filter_cons]
      simp [hfil]
    · by_cases hgt : last < h
      · have hall : ∀ q ∈ (h, a) :: rest, last < q.1 := by
          intro q hq
          rcases List.mem_cons.mp hq with hq1 | hq2
          · subst hq1; exact hgt
          · exact lt_trans hgt (hsorted.1 q hq2)
        have hfil : List.filter (fun p => decide (p.1 ≤ last)) ((h, a) :: rest) = [] := by
          refine List.filter_eq_nil_iff.mpr ?_
          intro q hq
          have hlt := hall q hq
          simp only [decide_eq_true_eq]
          omega
        rw [trim_kept_of_gt last _ cont hall, hfil]
      · have hle : h ≤ last := by omega
        simp [trimResponse, he, hgt, ih cont hsorted.2, List.filter_cons, hle]

theorem trim_overflow_sorted (last : Nat) (l : List (Nat × Nat)) (cont : Bool)
    (hsorted : l.Pairwise fun a b => a.1 < b.1) :
    (trimResponse last l cont).2.1 = (l.map Prod.fst).filter fun x => decide (last < x) := by
  induction l generalizing cont with
  | nil => rfl
  | cons p rest ih =>
    obtain ⟨h, a⟩ := p
    rw [List.pairwise_cons] at hsorted
    by_cases he : h = last
    · subst he
      have hall : ∀ q ∈ rest, h < q.1 := fun q hq => hsorted.1 q hq
      have hself : (rest.map Prod.fst).filter (fun x => decide (h < x)) = rest.map Prod.fst := by
        refine List.filter_eq_self.mpr ?_
        intro x hx
        obtain ⟨q, hq, hqx⟩ := List.mem_map.mp hx
        subst hqx
        simpa using hall q hq
      simp [trimResponse, trim_overflow_of_gt h rest false hall, hself]
    · by_cases hgt : last < h
      · have hall : ∀ q ∈ rest, last < q.1 := fun q hq => lt_trans hgt (hsorted.1 q hq)
        have hself : (rest.map Prod.fst).filter (fun x => decide (last < x)) = rest.map Prod.fst := by
          refine List.filter_eq_self.mpr ?_
          intro x hx
          obtain ⟨q, hq, hqx⟩ := List.mem_map.mp hx
          subst hqx
          simpa using hall q hq
        simp [trimResponse, he, hgt, hself]
      · simp [trimResponse, he, hgt, ih cont hsorted.2]

theorem trim_cont_of_overflow (last : Nat) (l : List (Nat × Nat)) (cont : Bool)
    (hover : ∃ p ∈ l, last < p.1) : (trimResponse last l cont).2.2 = false := by
  induction l generalizing cont with
  | nil => simp at hover
  | cons p rest ih =>
    obtain ⟨h, a⟩ := p
    by_cases he : h = last
    · simpa [trimResponse, he] using trim_cont_of_false last rest
    · by_cases hgt : last < h
      · simp [trimResponse, he, hgt]
      · obtain ⟨q, hq, hqgt⟩ := hover
        rcases List.mem_cons.mp hq with hq1 | hq2
        · subst hq1; omega
        · simpa [trimResponse, he, hgt] using ih cont ⟨q, hq2, hqgt⟩

theorem trim_kept_of_cont (last : Nat) (l : List (Nat × Nat)) (cont : Bool)
    (hc : (trimResponse last l cont).2.2 = true) :
    (trimResponse last l cont).1 = l ∧ cont = true := by
  induction l generalizing cont with
  | nil => exact ⟨rfl, hc⟩
  | cons p rest ih =>
    obtain ⟨h, a⟩ := p
    by_cases he : h = last
    · rw [show (trimResponse last ((h, a) :: rest) cont).2.2 =
          (trimResponse last rest false).2.2 by simp [trimResponse, he]] at hc
      rw [trim_cont_of_false last rest] at hc
      cases hc
    · by_cases hgt : last < h
      · rw [show (trimResponse last ((h, a) :: rest) cont).2.2 = false by
          simp [trimResponse, he, hgt]] at hc
        cases hc
      · rw [show (trimResponse last ((h, a) :: rest) cont).2.2 =
            (trimResponse last rest cont).2.2 by simp [trimResponse, he, hgt]] at hc
        obtain ⟨hk, hcont⟩ := ih cont hc
        refine ⟨?_, hcont⟩
        simp [trimResponse, he, hgt, hk]

/-! ## C2: the fresh chunking of loadSyncStatus -/

/-- C2: with no well-formed persisted progress, loadSyncStatus creates exactly
accountConcurrency = 16 account tasks of equal width 2^256 / 16, task i
spanning [i * step, i * step + (step - 1)] for step = 2^256 / 16, the last
task ending exactly at 0xff..ff, consecutive tasks chained as
tasks[i+1].Next = tasks[i].Last + 1, and tasks[0].Next = 0. -/
theorem C2_fresh_chunking :
    (loadSyncStatus none s0).tasks = initAccountTasks ∧
    initAccountTasks.length = accountConcurrency ∧
    accountConcurrency = 16 ∧
    initAccountTasks.map (fun t => (t.next, t.last)) =
      (List.range 16).map
        (fun i => (i * (hashSpace / 16), i * (hashSpace / 16) + (hashSpace / 16 - 1))) ∧
    initAccountTasks.head?.map (fun t => t.next) = some 0 ∧
    initAccountTasks.getLast?.map (fun t => t.last) = some maxHash ∧
    maxHash = 2 ^ 256 - 1 ∧
    contiguousBounds (initAccountTasks.map (fun t => (t.next, t.last))) = true := by
  refine ⟨rfl, ?_⟩
  decide

/-! ## C9: the bytecode request cap -/

/-- C9 counterexample: the claim puts maxCodeRequestCount at 85, but the Go
expression maxRequestSize / (24*1024) * 4 floors the division first:
524288 / 24576 = 21, and 21 * 4 = 84. -/
theorem C9_counterexample :
    maxRequestSize = 524288 ∧
    maxCodeRequestCount = maxRequestSize / (24 * 1024) * 4 ∧
    maxCodeRequestCount = 84 ∧ maxCodeRequestCount ≠ 85 := by decide

/-- C9 amended: the maximum number of bytecode hashes drained from a task's
codeTasks set into a single request equals maxCodeRequestCount = 84 (namely
maxRequestSize / 24KiB, floored, times 4, with maxRequestSize = 524288): the
drain never exceeds 84 hashes and reaches exactly 84 whenever at least 84 are
queued. -/
theorem C9_code_request_cap :
    maxCodeRequestCount = 84 ∧
    maxCodeRequestCount = maxRequestSize / (24 * 1024) * 4 ∧
    maxRequestSize = 524288 ∧
    (∀ codeTasks : List Nat, (drainCodeHashes codeTasks).length ≤ maxCodeRequestCount) ∧
    (∀ codeTasks : List Nat, maxCodeRequestCount ≤ codeTasks.length →
      (drainCodeHashes codeTasks).length = maxCodeRequestCount) := by
  refine ⟨by decide, by decide, by decide, ?_, ?_⟩
  · intro l
    simp [drainCodeHashes]
  · intro l hl
    simp [drainCodeHashes]
    omega

/-- C9 witness: draining a 100-element codeTasks set yields exactly
maxCodeRequestCount hashes. -/
theorem C9_code_request_cap_witness :
    (drainCodeHashes (List.range 100)).length = maxCodeRequestCount :=
  C9_code_request_cap.2.2.2.2 (List.range 100) (by decide)

/-! ## C7: the progress round trip -/

/-- C7: saving the sync status and loading the resulting record restores the
task list's intervals (each task's Next, Last and SubTasks bounds) and the
cumulative counters unchanged. -/
theorem C7_progress_roundtrip (s : syncerProgressState) :
    (loadSyncStatus (some (saveSyncStatus s)) s).tasks.map taskBounds =
      s.tasks.map taskBounds ∧
    (loadSyncStatus (some (saveSyncStatus s)) s).accountSynced = s.accountSynced ∧
    (loadSyncStatus (some (saveSyncStatus s)) s).accountBytes = s.accountBytes ∧
    (loadSyncStatus (some (saveSyncStatus s)) s).bytecodeSynced = s.bytecodeSynced ∧
    (loadSyncStatus (some (saveSyncStatus s)) s).bytecodeBytes = s.bytecodeBytes ∧
    (loadSyncStatus (some (saveSyncStatus s)) s).storageSynced = s.storageSynced ∧
    (loadSyncStatus (some (saveSyncStatus s)) s).storageBytes = s.storageBytes ∧
    (loadSyncStatus (some (saveSyncStatus s)) s).trienodeHealSynced = s.trienodeHealSynced ∧
    (loadSyncStatus (some (saveSyncStatus s)) s).trienodeHealBytes = s.trienodeHealBytes ∧
    (loadSyncStatus (some (saveSyncStatus s)) s).bytecodeHealSynced = s.bytecodeHealSynced ∧
    (loadSyncStatus (some (saveSyncStatus s)) s).bytecodeHealBytes = s.bytecodeHealBytes := by
  refine ⟨?_, rfl, rfl, rfl, rfl, rfl, rfl, rfl, rfl, rfl, rfl⟩
  simp only [loadSyncStatus, saveSyncStatus, List.map_map]
  exact List.map_congr_left fun t _ => taskBounds_roundtrip t

/-! ## C10: Unregister clears the stateless marker -/

/-- C10: Unregister removes the peer id from the stateless set, the peer
table and all five idle sets; a subsequent Register under the same id
succeeds and leaves the peer non-stateless and present in all five idle
sets, hence eligible again for assignment. -/
theorem C10_unregister_reregister (r : peerRegistry) (id : String)
    (hpeers : r.peers.Nodup) (hstateless : r.statelessPeers.Nodup)
    (hacc : r.accountIdlers.Nodup) (hsto : r.storageIdlers.Nodup)
    (hbyt : r.bytecodeIdlers.Nodup) (htri : r.trienodeHealIdlers.Nodup)
    (hbh : r.bytecodeHealIdlers.Nodup) (hin : id ∈ r.peers) :
    ∃ r1, unregisterPeer id r = .ok r1 ∧
      id ∉ r1.peers ∧ id ∉ r1.statelessPeers ∧
      id ∉ r1.accountIdlers ∧ id ∉ r1.storageIdlers ∧ id ∉ r1.bytecodeIdlers ∧
      id ∉ r1.trienodeHealIdlers ∧ id ∉ r1.bytecodeHealIdlers ∧
      ∃ r2, registerPeer id r1 = .ok r2 ∧
        id ∉ r2.statelessPeers ∧ id ∈ r2.peers ∧
        id ∈ r2.accountIdlers ∧ id ∈ r2.storageIdlers ∧ id ∈ r2.bytecodeIdlers ∧
        id ∈ r2.trienodeHealIdlers ∧ id ∈ r2.bytecodeHealIdlers ∧
        pickIdlePeer [id] r2.statelessPeers = some id := by
  refine ⟨peerRegistry.mk (r.peers.erase id) (r.statelessPeers.erase id)
      (r.accountIdlers.erase id) (r.storageIdlers.erase id) (r.bytecodeIdlers.erase id)
      (r.trienodeHealIdlers.erase id) (r.bytecodeHealIdlers.erase id),
    by simp [unregisterPeer, hin], hpeers.not_mem_erase,
    hstateless.not_mem_erase, hacc.not_mem_erase, hsto.not_mem_erase,
    hbyt.not_mem_erase, htri.not_mem_erase, hbh.not_mem_erase, ?_⟩
  refine ⟨peerRegistry.mk (insertPeer id (r.peers.erase id)) (r.statelessPeers.erase id)
      (insertPeer id (r.accountIdlers.erase id)) (insertPeer id (r.storageIdlers.erase id))
      (insertPeer id (r.bytecodeIdlers.erase id)) (insertPeer id (r.trienodeHealIdlers.erase id))
      (insertPeer id (r.bytecodeHealIdlers.erase id)),
    by simp [registerPeer, hpeers.not_mem_erase], hstateless.not_mem_erase,
    self_mem_insertPeer id _, self_mem_insertPeer id _, self_mem_insertPeer id _,
    self_mem_insertPeer id _, self_mem_insertPeer id _, self_mem_insertPeer id _, ?_⟩
  simp [pickIdlePeer, List.find?, hstateless.not_mem_erase]

/-! ## C8: empty account response handling -/

/-- C8: an empty but well-formed account response to a live request marks the
peer stateless, schedule-reverts the request (whose loop-side revert returns
the task fragment to the pending state by clearing task.req), surfaces no
error (the rejected exit returns nil), and every assigner skips stateless
peers when picking an idle peer. -/
theorem C8_empty_response_stateless (st : onAccountsState) (peer : String) (id : Nat)
    (hlive : id ∈ st.accountReqs) (hnodup : st.accountReqs.Nodup) :
    (onAccounts st peer id 0 0 0 false).2.1 = onAccountsExit.rejected ∧
    peer ∈ (onAccounts st peer id 0 0 0 false).1.statelessPeers ∧
    (onAccounts st peer id 0 0 0 false).2.2 = true ∧
    id ∉ (onAccounts st peer id 0 0 0 false).1.accountReqs ∧
    (∀ rst : accountRevertState, rst.stale = false → rst.taskReq = some id →
      (revertAccountRequest id rst).taskReq = none) ∧
    (∀ (idlers statelessPeers : List String) (q : String),
      pickIdlePeer idlers statelessPeers = some q → q ∉ statelessPeers) := by
  refine ⟨by simp [onAccounts, hlive], ?_, by simp [onAccounts, hlive],
    ?_, ?_, ?_⟩
  · simp only [onAccounts, hlive, if_pos, if_true]
    simpa using self_mem_insertPeer peer _
  · simp only [onAccounts, hlive, if_pos, if_true]
    simpa using hnodup.not_mem_erase
  · intro rst h1 h2
    simp [revertAccountRequest, h1, h2]
  · intro idlers statelessPeers q hq
    simpa using List.find?_some hq

/-- C8 witness: a concrete empty delivery to live request 42 from peer p1. -/
theorem C8_empty_response_stateless_witness :
    (onAccounts ⟨["p1"], [], [42], []⟩ "p1" 42 0 0 0 false).2.1 = onAccountsExit.rejected ∧
    "p1" ∈ (onAccounts ⟨["p1"], [], [42], []⟩ "p1" 42 0 0 0 false).1.statelessPeers ∧
    (onAccounts ⟨["p1"], [], [42], []⟩ "p1" 42 0 0 0 false).2.2 = true ∧
    42 ∉ (onAccounts ⟨["p1"], [], [42], []⟩ "p1" 42 0 0 0 false).1.accountReqs := by
  have h := C8_empty_response_stateless ⟨["p1"], [], [42], []⟩ "p1" 42
    (by decide) (by decide)
  exact ⟨h.1, h.2.1, h.2.2.1, h.2.2.2.1⟩

/-! ## C6: the revert protocol -/

/-- C6: for every request class, revert is idempotent via the stale check
(the stale signal is closed at most once and a second revert is a no-op),
and a first revert removes the request id from the live table, stops the
timer and restores the fragment state: task.req is cleared for an account
request, code hashes return to codeTasks for a bytecode request, the
account-to-root tuples return to stateTasks for a small-contract storage
request and subtask.req is cleared for a large-contract one, and heal
requests return their trie hash/path bindings to trieTasks and their code
hashes to codeTasks. -/
theorem C6_revert_protocol :
    (∀ (id : Nat) (st : accountRevertState),
      revertAccountRequest id (revertAccountRequest id st) = revertAccountRequest id st) ∧
    (∀ (id : Nat) (st : accountRevertState), st.stale = false → st.accountReqs.Nodup →
      (revertAccountRequest id st).stale = true ∧
      id ∉ (revertAccountRequest id st).accountReqs ∧
      (revertAccountRequest id st).timerRunning = false ∧
      (st.taskReq = some id → (revertAccountRequest id st).taskReq = none)) ∧
    (∀ (id : Nat) (hashes : List Nat) (st : bytecodeRevertState),
      revertBytecodeRequest id hashes (revertBytecodeRequest id hashes st) =
        revertBytecodeRequest id hashes st) ∧
    (∀ (id : Nat) (hashes : List Nat) (st : bytecodeRevertState),
      st.stale = false → st.bytecodeReqs.Nodup →
      (revertBytecodeRequest id hashes st).stale = true ∧
      id ∉ (revertBytecodeRequest id hashes st).bytecodeReqs ∧
      (revertBytecodeRequest id hashes st).timerRunning = false ∧
      ∀ h ∈ hashes, h ∈ (revertBytecodeRequest id hashes st).codeTasks) ∧
    (∀ (id : Nat) (accounts roots : List Nat) (isSub : Bool) (st : storageRevertState),
      revertStorageRequest id accounts roots isSub
          (revertStorageRequest id accounts roots isSub st) =
        revertStorageRequest id accounts roots isSub st) ∧
    (∀ (id : Nat) (accounts roots : List Nat) (st : storageRevertState),
      st.stale = false → st.storageReqs.Nodup → accounts.Nodup →
      accounts.length ≤ roots.length →
      (revertStorageRequest id accounts roots false st).stale = true ∧
      id ∉ (revertStorageRequest id accounts roots false st).storageReqs ∧
      (revertStorageRequest id accounts roots false st).timerRunning = false ∧
      ∀ p ∈ accounts.zip roots, p ∈ (revertStorageRequest id accounts roots false st).stateTasks) ∧
    (∀ (id : Nat) (accounts roots : List Nat) (st : storageRevertState),
      st.stale = false →
      (revertStorageRequest id accounts roots true st).stale = true ∧
      (revertStorageRequest id accounts roots true st).subTaskReq = none) ∧
    (∀ (id : Nat) (hashes paths : List Nat) (st : trienodeHealRevertState),
      revertTrienodeHealRequest id hashes paths
          (revertTrienodeHealRequest id hashes paths st) =
        revertTrienodeHealRequest id hashes paths st) ∧
    (∀ (id : Nat) (hashes paths : List Nat) (st : trienodeHealRevertState),
      st.stale = false → st.trienodeHealReqs.Nodup → hashes.Nodup →
      hashes.length ≤ paths.length →
      (revertTrienodeHealRequest id hashes paths st).stale = true ∧
      id ∉ (revertTrienodeHealRequest id hashes paths st).trienodeHealReqs ∧
      (revertTrienodeHealRequest id hashes paths st).timerRunning = false ∧
      ∀ p ∈ hashes.zip paths, p ∈ (revertTrienodeHealRequest id hashes paths st).trieTasks) ∧
    (∀ (id : Nat) (hashes : List Nat) (st : bytecodeHealRevertState),
      revertBytecodeHealRequest id hashes (revertBytecodeHealRequest id hashes st) =
        revertBytecodeHealRequest id hashes st) ∧
    (∀ (id : Nat) (hashes : List Nat) (st : bytecodeHealRevertState),
      st.stale = false → st.bytecodeHealReqs.Nodup →
      (revertBytecodeHealRequest id hashes st).stale = true ∧
      id ∉ (revertBytecodeHealRequest id hashes st).bytecodeHealReqs ∧
      (revertBytecodeHealRequest id hashes st).timerRunning = false ∧
      ∀ h ∈ hashes, h ∈ (revertBytecodeHealRequest id hashes st).codeTasks) := by
  refine ⟨?_, ?_, ?_, ?_, ?_, ?_, ?_, ?_, ?_, ?_, ?_⟩
  · intro id st
    by_cases h : st.stale <;> simp [revertAccountRequest, h]
  · intro id st h1 h2
    have hres : revertAccountRequest id st =
        accountRevertState.mk true (st.accountReqs.erase id) false
          (if st.taskReq = some id then none else st.taskReq) := by
      simp [revertAccountRequest, h1]
    rw [hres]
    refine ⟨rfl, h2.not_mem_erase, rfl, fun hreq => ?_⟩
    simp [hreq]
  · intro id hashes st
    by_cases h : st.stale <;> simp [revertBytecodeRequest, h]
  · intro id hashes st h1 h2
    have hres : revertBytecodeRequest id hashes st =
        bytecodeRevertState.mk true (st.bytecodeReqs.erase id) false
          (hashes.foldl (fun acc h => insertSet h acc) st.codeTasks) := by
      simp [revertBytecodeRequest, h1]
    rw [hres]
    exact ⟨rfl, h2.not_mem_erase, rfl, mem_foldl_insertSet hashes st.codeTasks⟩
  · intro id accounts roots isSub st
    by_cases h : st.stale <;> by_cases hs : isSub <;>
      simp [revertStorageRequest, h, hs]
  · intro id accounts roots st h1 h2 h3 h4
    have hres : revertStorageRequest id accounts roots false st =
        storageRevertState.mk true (st.storageReqs.erase id) false
          ((accounts.zip roots).foldl (fun acc p => mapInsert p.1 p.2 acc) st.stateTasks)
          st.subTaskReq := by
      simp [revertStorageRequest, h1]
    rw [hres]
    refine ⟨rfl, h2.not_mem_erase, rfl, ?_⟩
    refine mem_foldl_mapInsert (accounts.zip roots) st.stateTasks ?_
    rw [List.map_fst_zip accounts roots h4]
    exact h3
  · intro id accounts roots st h1
    have hres : revertStorageRequest id accounts roots true st =
        storageRevertState.mk true (st.storageReqs.erase id) false st.stateTasks none := by
      simp [revertStorageRequest, h1]
    rw [hres]
    exact ⟨rfl, rfl⟩
  · intro id hashes paths st
    by_cases h : st.stale <;> simp [revertTrienodeHealRequest, h]
  · intro id hashes paths st h1 h2 h3 h4
    have hres : revertTrienodeHealRequest id hashes paths st =
        trienodeHealRevertState.mk true (st.trienodeHealReqs.erase id) false
          ((hashes.zip paths).foldl (fun acc p => mapInsert p.1 p.2 acc) st.trieTasks) := by
      simp [revertTrienodeHealRequest, h1]
    rw [hres]
    refine ⟨rfl, h2.not_mem_erase, rfl, ?_⟩
    refine mem_foldl_mapInsert (hashes.zip paths) st.trieTasks ?_
    rw [List.map_fst_zip hashes paths h4]
    exact h3
  · intro id hashes st
    by_cases h : st.stale <;> simp [revertBytecodeHealRequest, h]
  · intro id hashes st h1 h2
    have hres : revertBytecodeHealRequest id hashes st =
        bytecodeHealRevertState.mk true (st.bytecodeHealReqs.erase id) false
          (hashes.foldl (fun acc h => insertSet h acc) st.codeTasks) := by
      simp [revertBytecodeHealRequest, h1]
    rw [hres]
    exact ⟨rfl, h2.not_mem_erase, rfl, mem_foldl_insertSet hashes st.codeTasks⟩

/-- C6 witness: a first revert of each class at concrete states restores the
fragment state; reverting an account request twice equals reverting once. -/
theorem C6_revert_protocol_witness :
    revertAccountRequest 1 (revertAccountRequest 1 ⟨false, [1, 2], true, some 1⟩) =
      revertAccountRequest 1 ⟨false, [1, 2], true, some 1⟩ ∧
    (1 : Nat) ∉ (revertAccountRequest 1 ⟨false, [1, 2], true, some 1⟩).accountReqs ∧
    (revertAccountRequest 1 ⟨false, [1, 2], true, some 1⟩).taskReq = none ∧
    (5 : Nat) ∈ (revertBytecodeRequest 2 [5, 6] ⟨false, [2], true, []⟩).codeTasks ∧
    ((7 : Nat), (70 : Nat)) ∈
      (revertStorageRequest 3 [7, 8] [70, 80] false ⟨false, [3], true, [], none⟩).stateTasks ∧
    (revertStorageRequest 3 [] [] true ⟨false, [3], true, [], some 9⟩).subTaskReq = none ∧
    ((11 : Nat), (110 : Nat)) ∈
      (revertTrienodeHealRequest 4 [11] [110] ⟨false, [4], true, []⟩).trieTasks ∧
    (13 : Nat) ∈ (revertBytecodeHealRequest 5 [13] ⟨false, [5], true, []⟩).codeTasks := by
  have h := C6_revert_protocol
  refine ⟨h.1 1 ⟨false, [1, 2], true, some 1⟩, ?_, ?_, ?_, ?_, ?_, ?_, ?_⟩
  · exact (h.2.1 1 ⟨false, [1, 2], true, some 1⟩ rfl (by decide)).2.1
  · exact (h.2.1 1 ⟨false, [1, 2], true, some 1⟩ rfl (by decide)).2.2.2 rfl
  · exact (h.2.2.2.1 2 [5, 6] ⟨false, [2], true, []⟩ rfl (by decide)).2.2.2 5 (by decide)
  · exact (h.2.2.2.2.2.1 3 [7, 8] [70, 80] ⟨false, [3], true, [], none⟩ rfl (by decide)
      (by decide) (by decide)).2.2.2 (7, 70) (by decide)
  · exact (h.2.2.2.2.2.2.1 3 [] [] ⟨false, [3], true, [], some 9⟩ rfl).2
  · exact (h.2.2.2.2.2.2.2.2.1 4 [11] [110] ⟨false, [4], true, []⟩ rfl (by decide)
      (by decide) (by decide)).2.2.2 (11, 110) (by decide)
  · exact (h.2.2.2.2.2.2.2.2.2.2 5 [13] ⟨false, [5], true, []⟩ rfl (by decide)).2.2.2
      13 (by decide)

/-- C10 witness: a registered peer that has been marked stateless,
unregistered and re-registered is non-stateless and idle for every class. -/
theorem C10_unregister_reregister_witness :
    ∃ r1, unregisterPeer "p1" regExample = .ok r1 ∧
      "p1" ∉ r1.peers ∧ "p1" ∉ r1.statelessPeers ∧
      "p1" ∉ r1.accountIdlers ∧ "p1" ∉ r1.storageIdlers ∧ "p1" ∉ r1.bytecodeIdlers ∧
      "p1" ∉ r1.trienodeHealIdlers ∧ "p1" ∉ r1.bytecodeHealIdlers ∧
      ∃ r2, registerPeer "p1" r1 = .ok r2 ∧
        "p1" ∉ r2.statelessPeers ∧ "p1" ∈ r2.peers ∧
        "p1" ∈ r2.accountIdlers ∧ "p1" ∈ r2.storageIdlers ∧ "p1" ∈ r2.bytecodeIdlers ∧
        "p1" ∈ r2.trienodeHealIdlers ∧ "p1" ∈ r2.bytecodeHealIdlers ∧
        pickIdlePeer ["p1"] r2.statelessPeers = some "p1" :=
  C10_unregister_reregister regExample "p1" (by decide) (by decide) (by decide)
    (by decide) (by decide) (by decide) (by decide) (by decide)

/-! ## C4: chunk-overflow trimming and persistence filtering -/

/-- C4: for a sorted account response whose hashes extend past task.Last,
processAccountResponse trims exactly the (hash, account) pairs with hash
strictly greater than Last, proves exactly those hashes into the overflow
set, clears the continuation flag, and forwardAccountTask never writes a
node whose key is in the overflow set or the boundary set. -/
theorem C4_overflow_trim (last : Nat) (l : List (Nat × Nat)) (cont : Bool)
    (hsorted : l.Pairwise fun a b => a.1 < b.1) (hover : ∃ p ∈ l, last < p.1) :
    (trimResponse last l cont).1 = (l.filter fun p => decide (p.1 ≤ last)) ∧
    (trimResponse last l cont).2.1 = ((l.map Prod.fst).filter fun x => decide (last < x)) ∧
    (trimResponse last l cont).2.2 = false ∧
    (∀ (nodes : List (Nat × Nat)) (bounds overflow incompletes : List Nat),
      ∀ kv ∈ forwardPersistKeys nodes bounds overflow incompletes,
        kv.1 ∉ overflow ∧ kv.1 ∉ bounds) := by
  refine ⟨trim_kept_sorted last l cont hsorted, trim_overflow_sorted last l cont hsorted,
    trim_cont_of_overflow last l cont hover, ?_⟩
  intro nodes bounds overflow incompletes kv hkv
  have hmem := List.mem_filter.mp hkv
  simp only [Bool.and_eq_true, decide_eq_true_eq] at hmem
  exact ⟨hmem.2.1.2, hmem.2.1.1⟩

/-- C4 witness: trimming a response with Last = 10 and sorted hashes
[3, 7, 12, 15] keeps the pairs up to 10, overflows 12 and 15, and clears
cont; a node keyed by a boundary or overflow hash is filtered out. -/
theorem C4_overflow_trim_witness :
    (trimResponse 10 [(3, 30), (7, 70), (12, 120), (15, 150)] true).1 = [(3, 30), (7, 70)] ∧
    (trimResponse 10 [(3, 30), (7, 70), (12, 120), (15, 150)] true).2.1 = [12, 15] ∧
    (trimResponse 10 [(3, 30), (7, 70), (12, 120), (15, 150)] true).2.2 = false ∧
    ((5 : Nat), (55 : Nat)) ∉ forwardPersistKeys [(5, 55), (6, 66)] [9] [5] [] := by
  have h := C4_overflow_trim 10 [(3, 30), (7, 70), (12, 120), (15, 150)] true
    (by decide) (by decide)
  refine ⟨h.1.trans (by decide), h.2.1.trans (by decide), h.2.2.1, ?_⟩
  intro hmem
  exact (h.2.2.2 [(5, 55), (6, 66)] [9] [5] [] (5, 55) hmem).1 (by simp)

/-! ## C3: the cursor advance of forwardAccountTask -/

theorem advanceNext_fst (l : List (Nat × Bool)) (lo : Nat) :
    (advanceNext lo l).1 =
      match (l.takeWhile fun p => !p.2).getLast? with
      | none => lo
      | some p => (p.1 + 1) % hashSpace := by
  induction l generalizing lo with
  | nil => rfl
  | cons p rest ih =>
    obtain ⟨h, b⟩ := p
    cases b with
    | true => simp [advanceNext, List.takeWhile_cons]
    | false =>
      rw [show advanceNext lo ((h, false) :: rest) =
          advanceNext ((h + 1) % hashSpace) rest from rfl]
      rw [ih ((h + 1) % hashSpace)]
      have ht : (((h, false) :: rest).takeWhile fun p => !p.2) =
          (h, false) :: (rest.takeWhile fun p => !p.2) := by
        simp [List.takeWhile_cons]
      rw [ht]
      cases htw : rest.takeWhile fun p => !p.2 with
      | nil => simp [htw]
      | cons q qs =>
        rw [List.getLast?_cons_cons]
        cases hql : (q :: qs).getLast? with
        | none => simp at hql
        | some x => simp [hql]

theorem advanceNext_snd (l : List (Nat × Bool)) (lo : Nat) :
    (advanceNext lo l).2 = true ↔ ∀ p ∈ l, p.2 = false := by
  induction l generalizing lo with
  | nil => simp [advanceNext]
  | cons p rest ih =>
    obtain ⟨h, b⟩ := p
    cases b with
    | true =>
      simp only [advanceNext, if_true]
      constructor
      · intro hfalse
        simp at hfalse
      · intro hall
        have hx := hall (h, true) (List.mem_cons_self _ _)
        simp at hx
    | false =>
      simpa [advanceNext] using ih ((h + 1) % hashSpace)

/-- C3 counterexample: for the task over [0, 100] filled with hashes [5, 9]
where index 1 needs code, the first-incomplete-hash is 9, yet
forwardAccountTask advances Next to 6 (one past the last complete hash 5),
not to first-incomplete-hash + 1 = 10. -/
theorem C3_counterexample :
    firstIncompleteHash c3Task c3Res = some 9 ∧
    (forwardAccountTask c3Task).next = 6 ∧
    (forwardAccountTask c3Task).next ≠ 9 + 1 := by decide

/-- C3 amended: forwardAccountTask advances task.Next to one past the last
delivered hash strictly before the first index with needCode or needState
set (Next unchanged when index 0 is already incomplete), and sets
task.done = true exactly when Next passed every delivered hash and the
response's continuation flag was false. -/
theorem C3_forward_cursor (t : accountTask) (r : accountResponse)
    (hres : t.res = some r) (hdone : t.done = false) :
    ((forwardAccountTask t).next =
      match ((r.hashes.zip (List.zipWith (fun c s => c || s) t.needCode t.needState)).takeWhile
          fun p => !p.2).getLast? with
      | none => t.next
      | some p => (p.1 + 1) % hashSpace) ∧
    ((forwardAccountTask t).done = true ↔
      (∀ p ∈ r.hashes.zip (List.zipWith (fun c s => c || s) t.needCode t.needState),
        p.2 = false) ∧ r.cont = false) := by
  have hN : (forwardAccountTask t).next =
      (advanceNext t.next
        (r.hashes.zip (List.zipWith (fun c s => c || s) t.needCode t.needState))).1 := by
    simp [forwardAccountTask, hres]
  have hD : (forwardAccountTask t).done =
      (if (advanceNext t.next
          (r.hashes.zip (List.zipWith (fun c s => c || s) t.needCode t.needState))).2
        then !r.cont else t.done) := by
    simp [forwardAccountTask, hres]
  constructor
  · rw [hN]
    exact advanceNext_fst _ _
  · rw [hD, hdone]
    by_cases hb : (advanceNext t.next
        (r.hashes.zip (List.zipWith (fun c s => c || s) t.needCode t.needState))).2 = true
    · rw [if_pos hb]
      have hall := (advanceNext_snd _ _).mp hb
      constructor
      · intro hcont
        refine ⟨hall, ?_⟩
        cases hc : r.cont
        · rfl
        · rw [hc] at hcont
          exact absurd hcont (by decide)
      · rintro ⟨-, hc⟩
        rw [hc]
        rfl
    · rw [if_neg hb]
      simp only [Bool.false_eq_true, false_iff]
      rintro ⟨hall, -⟩
      exact hb ((advanceNext_snd _ _).mpr hall)

/-- C3 witness: on the concrete task the amended characterization yields
Next = 6 with the task not yet done. -/
theorem C3_forward_cursor_witness :
    (forwardAccountTask c3Task).next = 6 ∧ (forwardAccountTask c3Task).done = false := by
  have h := C3_forward_cursor c3Task c3Res rfl rfl
  exact ⟨h.1.trans (by decide), by decide⟩

/-! ## C5: large-contract promotion in processStorageResponse -/

theorem storageSubtasks_eq (root : Nat) :
    storageSubtasks root =
      (List.range 16).map fun i =>
        mkStorageTask (i * (hashSpace / 16)) (i * (hashSpace / 16) + (hashSpace / 16 - 1)) root := by
  rfl

/-- C5: for a storage response whose trailing account did not complete
(cont = true) and that was not a subtask request, when the account has no
SubTasks entry processStorageResponse marks needHeal, creates exactly
storageConcurrency = 16 contiguous storage subtasks covering the whole
storage keyspace with the first at origin 0 (and the last ending at
0xff..ff), and forwards the active subtask: its Next becomes the last
delivered (kept) slot hash + 1 when the continuation flag is still set after
overflow trimming, and it is marked done otherwise. -/
theorem C5_large_contract_promotion (needStateJ needHealJ : Bool) (pend root : Nat)
    (slots : List (Nat × Nat)) (hne : slots ≠ []) :
    storageConcurrency = 16 ∧
    (storageSubtasks root).map (fun st => (st.next, st.last)) =
      (List.range 16).map
        (fun i => (i * (hashSpace / 16), i * (hashSpace / 16) + (hashSpace / 16 - 1))) ∧
    (storageSubtasks root).length = storageConcurrency ∧
    contiguousBounds ((storageSubtasks root).map fun st => (st.next, st.last)) = true ∧
    ((storageSubtasks root).map fun st => (st.next, st.last)).head? =
      some (0, hashSpace / 16 - 1) ∧
    ((storageSubtasks root).map fun st => (st.next, st.last)).getLast? =
      some (15 * (hashSpace / 16), maxHash) ∧
    (∀ st ∈ storageSubtasks root, st.root = root) ∧
    ((processTrailingStorage needStateJ needHealJ pend none true slots root).needHeal = true ∧
     (∃ tasks, (processTrailingStorage needStateJ needHealJ pend none true slots root).subTasks =
        some tasks ∧ tasks.length = storageConcurrency) ∧
     ((processTrailingStorage needStateJ needHealJ pend none true slots root).cont = true →
       ∃ h, slots.getLast?.map Prod.fst = some h ∧
         ∃ st, (processTrailingStorage needStateJ needHealJ pend none true slots root).subTask =
            some st ∧ st.next = (h + 1) % hashSpace ∧ st.done = false) ∧
     ((processTrailingStorage needStateJ needHealJ pend none true slots root).cont = false →
       ∃ st, (processTrailingStorage needStateJ needHealJ pend none true slots root).subTask =
          some st ∧ st.done = true)) := by
  obtain ⟨tl, hcons⟩ : ∃ tl, storageSubtasks root =
      mkStorageTask 0 (hashSpace / 16 - 1) root :: tl := ⟨_, rfl⟩
  have hmain : processTrailingStorage needStateJ needHealJ pend none true slots root =
      { needState := needStateJ
        needHeal := true
        pend := pend
        subTasks := some
          ((if (trimResponse (hashSpace / 16 - 1) slots true).2.2 then
              { mkStorageTask 0 (hashSpace / 16 - 1) root with
                next := (((trimResponse (hashSpace / 16 - 1) slots true).1.getLast?.map
                  Prod.fst).getD 0 + 1) % hashSpace }
            else { mkStorageTask 0 (hashSpace / 16 - 1) root with done := true }) :: tl)
        subTask := some
          (if (trimResponse (hashSpace / 16 - 1) slots true).2.2 then
              { mkStorageTask 0 (hashSpace / 16 - 1) root with
                next := (((trimResponse (hashSpace / 16 - 1) slots true).1.getLast?.map
                  Prod.fst).getD 0 + 1) % hashSpace }
            else { mkStorageTask 0 (hashSpace / 16 - 1) root with done := true })
        kept := (trimResponse (hashSpace / 16 - 1) slots true).1
        overflow := (trimResponse (hashSpace / 16 - 1) slots true).2.1
        cont := (trimResponse (hashSpace / 16 - 1) slots true).2.2 } := by
    simp only [processTrailingStorage, hcons]
    cases needStateJ <;> cases needHealJ <;>
      simp [mkStorageTask]
  have hbounds : (storageSubtasks root).map (fun st => (st.next, st.last)) =
      (List.range 16).map
        (fun i => (i * (hashSpace / 16), i * (hashSpace / 16) + (hashSpace / 16 - 1))) := rfl
  refine ⟨rfl, rfl, by rw [storageSubtasks_eq]; simp [storageConcurrency],
    by rw [hbounds]; decide, by rw [hbounds]; decide, by rw [hbounds]; decide,
    ?_, ?_, ?_, ?_, ?_⟩
  · rw [storageSubtasks_eq]
    intro st hst
    obtain ⟨i, -, rfl⟩ := List.mem_map.mp hst
    rfl
  · rw [hmain]
  · rw [hmain]
    refine ⟨_, rfl, ?_⟩
    have hlen : (storageSubtasks root).length = 16 := by
      rw [storageSubtasks_eq]; simp
    rw [hcons] at hlen
    simp only [List.length_cons] at hlen ⊢
    simp only [storageConcurrency]
    omega
  · rw [hmain]
    dsimp only
    intro hcont
    have hkept := (trim_kept_of_cont (hashSpace / 16 - 1) slots true hcont).1
    obtain ⟨q, hq⟩ : ∃ q, slots.getLast? = some q := by
      cases hq : slots.getLast? with
      | none => exact absurd (List.getLast?_eq_none_iff.mp hq) hne
      | some q => exact ⟨q, rfl⟩
    refine ⟨q.1, by rw [hq]; rfl, ?_⟩
    refine ⟨_, rfl, ?_⟩
    rw [if_pos hcont]
    constructor
    · dsimp only
      rw [hkept, hq]
      rfl
    · rfl
  · rw [hmain]
    dsimp only
    intro hcont
    refine ⟨_, rfl, ?_⟩
    rw [if_neg (by simp [hcont])]

/-- C5 witness: a trailing account over slots [(4, 40), (9, 90)] with cont
set and no existing SubTasks entry gets needHeal marked, 16 subtasks, and
the first subtask forwarded to Next = 10. -/
theorem C5_large_contract_promotion_witness :
    (processTrailingStorage true false 3 none true [(4, 40), (9, 90)] 77).needHeal = true ∧
    (∃ tasks, (processTrailingStorage true false 3 none true [(4, 40), (9, 90)] 77).subTasks =
      some tasks ∧ tasks.length = storageConcurrency) ∧
    (∃ h, ([((4 : Nat), (40 : Nat)), (9, 90)].getLast?.map Prod.fst) = some h ∧
      ∃ st, (processTrailingStorage true false 3 none true [(4, 40), (9, 90)] 77).subTask =
        some st ∧ st.next = (h + 1) % hashSpace ∧ st.done = false) := by
  have h := C5_large_contract_promotion true false 3 77 [(4, 40), (9, 90)] (by decide)
  exact ⟨h.2.2.2.2.2.2.2.1, h.2.2.2.2.2.2.2.2.1, h.2.2.2.2.2.2.2.2.2.1 (by decide)⟩

/-! ## C1: the account-task partition invariant -/

theorem cleanAccountTasks_sublist (ts : List accountTask) :
    List.Sublist (cleanAccountTasks ts) ts := by
  induction ts with
  | nil => exact List.Sublist.refl _
  | cons t rest ih =>
    by_cases h : t.done
    · simp only [cleanAccountTasks, h, if_true]
      exact ih.cons t
    · simp only [cleanAccountTasks, h, Bool.false_eq_true, if_false]
      exact ih.cons₂ t

theorem initAccountTasks_bounds :
    ∀ i, i < 16 → ∃ t ∈ initAccountTasks,
      t.next = i * (hashSpace / 16) ∧ t.last = i * (hashSpace / 16) + (hashSpace / 16 - 1) := by
  decide

theorem initAccountTasks_cover (k : Nat) (hk : k < hashSpace) :
    ∃ t ∈ initAccountTasks, t.next ≤ k ∧ k ≤ t.last := by
  have hc : (0 : Nat) < hashSpace / 16 := by decide
  have hi : k / (hashSpace / 16) < 16 := by
    have h16 : hashSpace / 16 * 16 = hashSpace := by decide
    exact Nat.div_lt_of_lt_mul (by omega)
  obtain ⟨t, hmem, hnext, hlast⟩ := initAccountTasks_bounds (k / (hashSpace / 16)) hi
  refine ⟨t, hmem, ?_, ?_⟩
  · rw [hnext]
    exact Nat.div_mul_le_self k (hashSpace / 16)
  · rw [hlast]
    have hmod := Nat.div_add_mod k (hashSpace / 16)
    have hmlt : k % (hashSpace / 16) < hashSpace / 16 := Nat.mod_lt _ hc
    have hcomm : k / (hashSpace / 16) * (hashSpace / 16) =
        (hashSpace / 16) * (k / (hashSpace / 16)) := Nat.mul_comm _ _
    omega

theorem advanceNext_fst_cases (l : List (Nat × Bool)) (lo : Nat) :
    (advanceNext lo l).1 = lo ∨ ∃ p ∈ l, (advanceNext lo l).1 = (p.1 + 1) % hashSpace := by
  induction l generalizing lo with
  | nil => exact Or.inl rfl
  | cons p rest ih =>
    obtain ⟨h, b⟩ := p
    cases b with
    | true => exact Or.inl rfl
    | false =>
      have hstep : advanceNext lo ((h, false) :: rest) =
          advanceNext ((h + 1) % hashSpace) rest := rfl
      rcases ih ((h + 1) % hashSpace) with he | ⟨q, hq, he⟩
      · right
        exact ⟨(h, false), List.mem_cons_self _ _, by rw [hstep, he]⟩
      · right
        exact ⟨q, List.mem_cons_of_mem _ hq, by rw [hstep, he]⟩

/-- C1 counterexample: after the event loop forwards the completed first
fresh chunk (one account delivered at the chunk's Last bound, cont = false,
so the task becomes done with its Next wrapped past Last) and
cleanAccountTasks removes it, the remaining tasks no longer cover the key 0:
the union of [Next, Last] is not the whole keyspace, refuting the claimed
invariant at every point after progress is made. -/
theorem C1_counterexample : ¬ isFullPartition c1Tasks := by
  rintro ⟨-, -, hcov⟩
  obtain ⟨t, htmem, hle, -⟩ := hcov 0 (by decide)
  have hall : ∀ t ∈ c1Tasks, 0 < t.next := by decide
  have := hall t htmem
  omega

/-- C1 amended: the account tasks form a disjoint ascending family whose
union is the whole keyspace only at task-list initialization: the fresh
chunking is a full partition, cleanAccountTasks preserves sortedness and
pairwise disjointness, and forwardAccountTask keeps a task's Last while
moving Next monotonically within [Next, Last + 1] (for a response whose
hashes lie in [Next, Last] below the keyspace maximum), so the intervals
stay sorted and disjoint while their union shrinks as accounts are synced. -/
theorem C1_partition_invariant :
    isFullPartition initAccountTasks ∧
    (∀ ts : List accountTask, ascendingDisjoint ts → ascendingDisjoint (cleanAccountTasks ts)) ∧
    (∀ (t : accountTask) (r : accountResponse), t.res = some r →
      t.next ≤ t.last + 1 →
      (∀ h ∈ r.hashes, t.next ≤ h ∧ h ≤ t.last ∧ h + 1 < hashSpace) →
      (forwardAccountTask t).last = t.last ∧
      t.next ≤ (forwardAccountTask t).next ∧
      (forwardAccountTask t).next ≤ t.last + 1) := by
  refine ⟨⟨by decide, by decide, initAccountTasks_cover⟩, ?_, ?_⟩
  · intro ts h
    exact h.sublist (cleanAccountTasks_sublist ts)
  · intro t r hres hnl hin
    have hL : (forwardAccountTask t).last = t.last := by
      simp [forwardAccountTask, hres]
    have hN : (forwardAccountTask t).next =
        (advanceNext t.next
          (r.hashes.zip (List.zipWith (fun c s => c || s) t.needCode t.needState))).1 := by
      simp [forwardAccountTask, hres]
    refine ⟨hL, ?_, ?_⟩
    · rw [hN]
      rcases advanceNext_fst_cases
          (r.hashes.zip (List.zipWith (fun c s => c || s) t.needCode t.needState)) t.next with
        he | ⟨p, hp, he⟩
      · rw [he]
      · rw [he]
        obtain ⟨hmem, -⟩ := List.of_mem_zip hp
        obtain ⟨h1, -, h3⟩ := hin p.1 hmem
        rw [Nat.mod_eq_of_lt h3]
        omega
    · rw [hN]
      rcases advanceNext_fst_cases
          (r.hashes.zip (List.zipWith (fun c s => c || s) t.needCode t.needState)) t.next with
        he | ⟨p, hp, he⟩
      · rw [he]
        exact hnl
      · rw [he]
        obtain ⟨hmem, -⟩ := List.of_mem_zip hp
        obtain ⟨-, h2, h3⟩ := hin p.1 hmem
        rw [Nat.mod_eq_of_lt h3]
        omega

/-- C1 witness: cleaning a concrete list with a done middle task keeps the
rest sorted and disjoint, and forwarding the task over [20, 30] with one
complete account at 25 keeps Last = 30 and moves Next into [20, 31]. -/
theorem C1_partition_invariant_witness :
    ascendingDisjoint (cleanAccountTasks
      [mkAccountTask 0 5, { mkAccountTask 6 10 with done := true }, mkAccountTask 11 20]) ∧
    (forwardAccountTask c1WitnessTask).last = 30 ∧
    20 ≤ (forwardAccountTask c1WitnessTask).next ∧
    (forwardAccountTask c1WitnessTask).next ≤ 31 := by
  have h := C1_partition_invariant
  refine ⟨h.2.1 _ (by decide), ?_⟩
  have h3 := h.2.2 c1WitnessTask { hashes := [25], accounts := [7], cont := true }
    rfl (by decide) (by decide)
  exact ⟨h3.1, h3.2.1, h3.2.2⟩

end SnapSync
